import Mathlib

/-!
Verification of the TeleLite update-dispatch engine (`TeleLite/bot.py`).

We shallowly embed the JSON-like payload values, the filter algebra
(`AndFilter` / `OrFilter` / `NotFilter` / `FilterWrapper`), the concrete
filters (`Filters.text`, `Filters.command`), structural matching
(`match_filter`), update classification (`Bot._extract_update_type` over
`update_types`), the reserved-key rewrite (`Bot._fix_reserved_keys`), the
dispatch loop (`Bot._process_handlers`) and the polling-offset update of
`Bot._polling_loop`, and prove the specified properties about them.

Python dictionaries are modelled as ordered association lists (`VDict`);
Python exceptions are modelled with `Except Unit`.  Equality of values is
modelled structurally (so `True` and `1` are distinct, unlike in Python;
no property below depends on that corner).
-/

-- JSON-like Python value: `None`, `bool`, `int`, `str`, `list`, `dict`.
-- `VList` and `VDict` are the payload lists and (ordered) dictionaries.
mutual

inductive Val where
  | null : Val
  | bool (b : Bool) : Val
  | int (n : Int) : Val
  | str (s : String) : Val
  | list (l : VList) : Val
  | dict (d : VDict) : Val

inductive VList where
  | nil : VList
  | cons (v : Val) (t : VList) : VList

inductive VDict where
  | nil : VDict
  | cons (k : String) (v : Val) (t : VDict) : VDict

end

deriving instance DecidableEq for Val
deriving instance Repr for Val

/-- First-occurrence lookup in an ordered dictionary (Python `d[k]` / `k in d`). -/
def lookupV : VDict → String → Option Val
  | .nil, _ => none
  | .cons k v t, key => if k = key then some v else lookupV t key

/-- Python truthiness (`bool(x)`): `None`, `False`, `0`, `""`, `[]`, `{}` are falsy. -/
def truthy : Val → Bool
  | .null => false
  | .bool b => b
  | .int n => n != 0
  | .str s => s != ""
  | .list .nil => false
  | .list _ => true
  | .dict .nil => false
  | .dict _ => true

/-- Python `update.get(k)` with default `None`. -/
def pyGet (u : VDict) (k : String) : Val := (lookupV u k).getD Val.null

/-- Python `update.get(k, dflt)`. -/
def pyGetD (u : VDict) (k : String) (dflt : Val) : Val := (lookupV u k).getD dflt

def VList.toList : VList → List Val
  | .nil => []
  | .cons v t => v :: t.toList

def VList.ofList : List Val → VList
  | [] => .nil
  | v :: t => .cons v (VList.ofList t)

def VDict.entries : VDict → List (String × Val)
  | .nil => []
  | .cons k v t => (k, v) :: t.entries

def VDict.ofList : List (String × Val) → VDict
  | [] => .nil
  | (k, v) :: t => .cons k v (VDict.ofList t)

/-- Remove every entry with the given key (Python dicts have unique keys,
so at most one entry is ever removed on faithful inputs). -/
def dictRemove : VDict → String → VDict
  | .nil, _ => .nil
  | .cons k v t, key => if k = key then dictRemove t key else .cons k v (dictRemove t key)

/-- Python `d[k] = v`: replace the (first) existing entry in place, else append. -/
def dictAssign : VDict → String → Val → VDict
  | .nil, key, nv => .cons key nv .nil
  | .cons k v t, key, nv =>
      if k = key then .cons k nv t
      else .cons k v (dictAssign t key nv)

/-- The `data.pop("from"); data["from_user"] = ...` step of `Bot._fix_reserved_keys`:
remove the `"from"` entry and assign its value to `"from_user"` (replacing the
value in place when `"from_user"` already exists, else appending), when
`"from"` is present; otherwise the dictionary is unchanged. -/
def renameFrom (d : VDict) : VDict :=
  match lookupV d "from" with
  | some v => dictAssign (dictRemove d "from") "from_user" v
  | none => d

-- Size measure counting value nodes (dictionary keys excluded), used only
-- for termination of the reserved-key rewrite below.
mutual

def vsize : Val → Nat
  | .dict d => vdsize d + 1
  | .list l => vlsize l + 1
  | _ => 1

def vdsize : VDict → Nat
  | .nil => 0
  | .cons _ v t => vsize v + vdsize t + 1

def vlsize : VList → Nat
  | .nil => 0
  | .cons v t => vsize v + vlsize t + 1

end

theorem vdsize_dictRemove : (d : VDict) → (key : String) → vdsize (dictRemove d key) ≤ vdsize d
  | .nil, _ => by simp [dictRemove]
  | .cons k v t, key => by
      by_cases h : k = key <;> simp [dictRemove, h, vdsize] <;>
        have hr := vdsize_dictRemove t key <;> omega

theorem vdsize_dictRemove_lookup : (d : VDict) → (key : String) → (v : Val) →
    lookupV d key = some v → vdsize (dictRemove d key) + vsize v + 1 ≤ vdsize d
  | .nil, _, _ => by simp [lookupV]
  | .cons k w t, key, v => by
      by_cases h : k = key
      · intro hl
        simp [lookupV, h] at hl
        subst hl
        simp [dictRemove, h, vdsize]
        have hr := vdsize_dictRemove t key
        omega
      · intro hl
        simp [lookupV, h] at hl
        have hr := vdsize_dictRemove_lookup t key v hl
        simp [dictRemove, h, vdsize]
        omega

theorem vdsize_dictAssign : (d : VDict) → (key : String) → (v : Val) →
    vdsize (dictAssign d key v) ≤ vdsize d + vsize v + 1
  | .nil, _, _ => by simp [dictAssign, vdsize]
  | .cons k w t, key, v => by
      by_cases h : k = key <;> simp [dictAssign, h, vdsize] <;>
        [skip; have ha := vdsize_dictAssign t key v] <;> omega

theorem vdsize_renameFrom (d : VDict) : vdsize (renameFrom d) ≤ vdsize d := by
  cases hl : lookupV d "from" with
  | none => simp [renameFrom, hl]
  | some v =>
      simp only [renameFrom, hl]
      have h1 := vdsize_dictAssign (dictRemove d "from") "from_user" v
      have h2 := vdsize_dictRemove_lookup d "from" v hl
      omega

-- `Bot._fix_reserved_keys`: on a dict, first rename `from` to `from_user`
-- (`data["from_user"] = data.pop("from")`), then walk the (renamed) entries:
-- dict values are rewritten recursively, list values have exactly their dict
-- elements rewritten, all other values are untouched; a non-dict argument is
-- returned unchanged.
mutual

def fix_reserved_keys : Val → Val
  | .dict d => .dict (fixEntries (renameFrom d))
  | v => v
termination_by v => vsize v
decreasing_by
  have hrf := vdsize_renameFrom d
  simp [vsize]
  omega

def fixEntries : VDict → VDict
  | .nil => .nil
  | .cons k v t =>
      match v with
      | .dict d2 => .cons k (fix_reserved_keys (.dict d2)) (fixEntries t)
      | .list l => .cons k (.list (fixList l)) (fixEntries t)
      | _ => .cons k v (fixEntries t)
termination_by d => vdsize d
decreasing_by all_goals simp [vdsize, vsize] <;> omega

def fixList : VList → VList
  | .nil => .nil
  | .cons v t =>
      match v with
      | .dict d2 => .cons (fix_reserved_keys (.dict d2)) (fixList t)
      | _ => .cons v (fixList t)
termination_by l => vlsize l
decreasing_by all_goals simp [vlsize, vsize] <;> omega

end

theorem lookupV_dictRemove_self : (d : VDict) → (key : String) →
    lookupV (dictRemove d key) key = none
  | .nil, _ => by simp [dictRemove, lookupV]
  | .cons k v t, key => by
      by_cases h : k = key <;> simp [dictRemove, h, lookupV] <;>
        exact lookupV_dictRemove_self t key

theorem lookupV_dictRemove_ne : (d : VDict) → (key k' : String) → k' ≠ key →
    lookupV (dictRemove d key) k' = lookupV d k'
  | .nil, _, _, _ => by simp [dictRemove]
  | .cons k v t, key, k', hne => by
      by_cases h : k = key
      · simp [dictRemove, h, lookupV, Ne.symm hne]
        exact lookupV_dictRemove_ne t key k' hne
      · by_cases h2 : k = k'
        · subst h2
          simp [dictRemove, h, lookupV, hne]
        · simp [dictRemove, h, lookupV, h2]
          exact lookupV_dictRemove_ne t key k' hne

theorem lookupV_dictAssign_self : (d : VDict) → (key : String) → (v : Val) →
    lookupV (dictAssign d key v) key = some v
  | .nil, _, _ => by simp [dictAssign, lookupV]
  | .cons k w t, key, v => by
      by_cases h : k = key <;> simp [dictAssign, h, lookupV] <;>
        exact lookupV_dictAssign_self t key v

theorem lookupV_dictAssign_ne : (d : VDict) → (key k' : String) → (v : Val) → k' ≠ key →
    lookupV (dictAssign d key v) k' = lookupV d k'
  | .nil, _, _, _, hne => by simp [dictAssign, lookupV, Ne.symm hne]
  | .cons k w t, key, k', v, hne => by
      by_cases h : k = key
      · subst h
        simp [dictAssign, lookupV, Ne.symm hne]
      · by_cases h2 : k = k'
        · subst h2
          simp [dictAssign, lookupV, hne]
        · simp [dictAssign, h, lookupV, h2]
          exact lookupV_dictAssign_ne t key k' v hne

/-- After the rename step, the reserved key `from` is gone from the top level. -/
theorem lookupV_renameFrom_from (d : VDict) : lookupV (renameFrom d) "from" = none := by
  cases hl : lookupV d "from" with
  | none => simpa [renameFrom, hl] using hl
  | some v =>
      simp only [renameFrom, hl]
      rw [lookupV_dictAssign_ne _ _ _ _ (by decide)]
      exact lookupV_dictRemove_self d "from"

theorem lookupV_renameFrom_ne (d : VDict) (k : String) (h1 : k ≠ "from")
    (h2 : k ≠ "from_user") : lookupV (renameFrom d) k = lookupV d k := by
  cases hl : lookupV d "from" with
  | none => simp [renameFrom, hl]
  | some v =>
      simp only [renameFrom, hl]
      rw [lookupV_dictAssign_ne _ _ _ _ h2]
      exact lookupV_dictRemove_ne d _ _ h1

theorem lookupV_renameFrom_from_user (d : VDict) (v : Val)
    (hl : lookupV d "from" = some v) : lookupV (renameFrom d) "from_user" = some v := by
  simp only [renameFrom, hl]
  exact lookupV_dictAssign_self _ _ _

/-- The per-value action of the rewrite loop body over one dictionary entry. -/
def fixValAction : Val → Val
  | .dict d2 => fix_reserved_keys (.dict d2)
  | .list l => .list (fixList l)
  | v => v

theorem fixEntries_cons (k : String) (v : Val) (t : VDict) :
    fixEntries (.cons k v t) = .cons k (fixValAction v) (fixEntries t) := by
  cases v <;> simp [fixEntries, fixValAction]

theorem lookupV_fixEntries : (d : VDict) → (k : String) →
    lookupV (fixEntries d) k = (lookupV d k).map fixValAction
  | .nil, _ => by simp [fixEntries, lookupV]
  | .cons k0 v t, k => by
      rw [fixEntries_cons]
      by_cases h : k0 = k <;> simp [lookupV, h] <;>
        exact lookupV_fixEntries t k

-- Fixed-point characterization of the rewrite: `noFromVal v` says the key
-- `from` is absent from every dictionary the rewrite's recursion reaches
-- inside `v` (dicts, their dict/list values, and dict elements of lists;
-- NOT elements of lists nested inside lists, which the rewrite skips).
mutual

def noFromVal : Val → Bool
  | .dict d => (lookupV d "from").isNone && noFromEntries d
  | .list l => noFromList l
  | _ => true

def noFromEntries : VDict → Bool
  | .nil => true
  | .cons _ v t => noFromVal v && noFromEntries t

def noFromList : VList → Bool
  | .nil => true
  | .cons v t =>
      (match v with
       | .dict _ => noFromVal v
       | _ => true) && noFromList t

end


/-- The per-element action of the rewrite on list elements: dict elements are
rewritten, every other element (including nested lists) is untouched. -/
def fixElemAction : Val → Val
  | .dict d2 => fix_reserved_keys (.dict d2)
  | v => v

theorem fixList_cons (v : Val) (t : VList) :
    fixList (.cons v t) = .cons (fixElemAction v) (fixList t) := by
  cases v <;> simp [fixList, fixElemAction]

def noFromElem : Val → Bool
  | .dict d => noFromVal (.dict d)
  | _ => true

theorem noFromList_cons (v : Val) (t : VList) :
    noFromList (.cons v t) = (noFromElem v && noFromList t) := by
  cases v <;> simp [noFromList, noFromElem]

mutual

theorem noFromVal_fixValAction : (v : Val) → noFromVal (fixValAction v) = true
  | .null => by simp [fixValAction, noFromVal]
  | .bool _ => by simp [fixValAction, noFromVal]
  | .int _ => by simp [fixValAction, noFromVal]
  | .str _ => by simp [fixValAction, noFromVal]
  | .list l => by
      simp only [fixValAction, noFromVal]
      exact noFromList_fixList l
  | .dict d => by
      simp only [fixValAction, fix_reserved_keys, noFromVal, Bool.and_eq_true]
      constructor
      · rw [lookupV_fixEntries, lookupV_renameFrom_from]
        rfl
      · exact noFromEntries_fixEntries (renameFrom d)
termination_by v => vsize v
decreasing_by
  all_goals
    first
      | (simp [vsize]; done)
      | (simp [vsize]; omega)
      | (have hrf := vdsize_renameFrom d; simp [vsize]; omega)

theorem noFromEntries_fixEntries : (d : VDict) → noFromEntries (fixEntries d) = true
  | .nil => by simp [fixEntries, noFromEntries]
  | .cons k v t => by
      rw [fixEntries_cons]
      simp only [noFromEntries, Bool.and_eq_true]
      exact ⟨noFromVal_fixValAction v, noFromEntries_fixEntries t⟩
termination_by d => vdsize d
decreasing_by all_goals (simp [vdsize, vsize]; omega)

theorem noFromList_fixList : (l : VList) → noFromList (fixList l) = true
  | .nil => by simp [fixList, noFromList]
  | .cons v t => by
      rw [fixList_cons, noFromList_cons, Bool.and_eq_true]
      refine ⟨?_, noFromList_fixList t⟩
      match v with
      | .dict d2 =>
          have h := noFromVal_fixValAction (.dict d2)
          simpa [fixElemAction, noFromElem, fixValAction, fix_reserved_keys] using h
      | .null | .bool _ | .int _ | .str _ | .list _ =>
          simp [fixElemAction, noFromElem]
termination_by l => vlsize l
decreasing_by all_goals (simp [vlsize, vsize]; omega)

end

mutual

theorem fixValAction_of_noFrom : (v : Val) → noFromVal v = true → fixValAction v = v
  | .null, _ => rfl
  | .bool _, _ => rfl
  | .int _, _ => rfl
  | .str _, _ => rfl
  | .list l, h => by
      simp only [noFromVal] at h
      simp only [fixValAction]
      rw [fixList_of_noFrom l h]
  | .dict d, h => by
      simp only [noFromVal, Bool.and_eq_true, Option.isNone_iff_eq_none] at h
      simp only [fixValAction, fix_reserved_keys]
      have hr : renameFrom d = d := by simp [renameFrom, h.1]
      rw [hr, fixEntries_of_noFrom d h.2]
termination_by v => vsize v
decreasing_by all_goals (simp [vsize]; try omega)

theorem fixEntries_of_noFrom : (d : VDict) → noFromEntries d = true → fixEntries d = d
  | .nil, _ => by simp [fixEntries]
  | .cons k v t, h => by
      simp only [noFromEntries, Bool.and_eq_true] at h
      rw [fixEntries_cons, fixValAction_of_noFrom v h.1, fixEntries_of_noFrom t h.2]
termination_by d => vdsize d
decreasing_by all_goals (simp [vdsize, vsize]; try omega)

theorem fixList_of_noFrom : (l : VList) → noFromList l = true → fixList l = l
  | .nil, _ => by simp [fixList]
  | .cons (.dict d2) t, h => by
      rw [noFromList_cons, Bool.and_eq_true] at h
      rw [fixList_cons, fixList_of_noFrom t h.2]
      have h2 := fixValAction_of_noFrom (.dict d2) (by simpa [noFromElem] using h.1)
      simp only [fixValAction] at h2
      simp [fixElemAction, h2]
  | .cons .null t, h => by
      rw [noFromList_cons, Bool.and_eq_true] at h
      rw [fixList_cons, fixList_of_noFrom t h.2]
      simp [fixElemAction]
  | .cons (.bool b) t, h => by
      rw [noFromList_cons, Bool.and_eq_true] at h
      rw [fixList_cons, fixList_of_noFrom t h.2]
      simp [fixElemAction]
  | .cons (.int n) t, h => by
      rw [noFromList_cons, Bool.and_eq_true] at h
      rw [fixList_cons, fixList_of_noFrom t h.2]
      simp [fixElemAction]
  | .cons (.str s) t, h => by
      rw [noFromList_cons, Bool.and_eq_true] at h
      rw [fixList_cons, fixList_of_noFrom t h.2]
      simp [fixElemAction]
  | .cons (.list l2) t, h => by
      rw [noFromList_cons, Bool.and_eq_true] at h
      rw [fixList_cons, fixList_of_noFrom t h.2]
      simp [fixElemAction]
termination_by l => vlsize l
decreasing_by all_goals (simp [vlsize, vsize]; try omega)

end

/-- One rewrite pass leaves a value whose reachable parts have no `from`
key, so a second pass is the identity on it. -/
theorem fix_reserved_keys_idem (v : Val) :
    fix_reserved_keys (fix_reserved_keys v) = fix_reserved_keys v := by
  cases v with
  | dict d =>
      have h := noFromVal_fixValAction (.dict d)
      have h2 := fixValAction_of_noFrom _ h
      simp only [fix_reserved_keys, fixValAction] at h2 ⊢
      exact h2
  | null => simp [fix_reserved_keys]
  | bool _ => simp [fix_reserved_keys]
  | int _ => simp [fix_reserved_keys]
  | str _ => simp [fix_reserved_keys]
  | list _ => simp [fix_reserved_keys]

/-- Lookup of a top-level key inside a value that is a dictionary. -/
def lookupVal : Val → String → Option Val
  | .dict d, k => lookupV d k
  | _, _ => none

/-- Scalar (non-mapping, non-sequence) values. -/
def isScalar : Val → Bool
  | .null => true
  | .bool _ => true
  | .int _ => true
  | .str _ => true
  | _ => false

-- Deep occurrence of a dictionary key anywhere inside a value, at every
-- nesting level (unlike `noFromVal`, this also looks inside lists of lists).
mutual

def hasFromDeepVal : Val → Bool
  | .dict d => hasFromDeepEntries d
  | .list l => hasFromDeepList l
  | _ => false

def hasFromDeepEntries : VDict → Bool
  | .nil => false
  | .cons k v t => (k == "from") || hasFromDeepVal v || hasFromDeepEntries t

def hasFromDeepList : VList → Bool
  | .nil => false
  | .cons v t => hasFromDeepVal v || hasFromDeepList t

end

theorem fixList_toList : (l : VList) →
    VList.toList (fixList l) =
      (VList.toList l).map (fun i => match i with
        | Val.dict _ => fix_reserved_keys i
        | _ => i)
  | .nil => by simp [fixList, VList.toList]
  | .cons v t => by
      rw [fixList_cons]
      simp only [VList.toList, List.map_cons]
      congr 1
      · cases v <;> simp [fixElemAction]
      · exact fixList_toList t

theorem lookupVal_fix_from (d : VDict) :
    lookupVal (fix_reserved_keys (.dict d)) "from" = none := by
  simp only [fix_reserved_keys, lookupVal]
  rw [lookupV_fixEntries, lookupV_renameFrom_from]
  rfl

theorem lookupVal_fix_from_user (d : VDict) (v : Val)
    (h : lookupV d "from" = some v) :
    lookupVal (fix_reserved_keys (.dict d)) "from_user" = some (fixValAction v) := by
  simp only [fix_reserved_keys, lookupVal]
  rw [lookupV_fixEntries, lookupV_renameFrom_from_user d v h]
  rfl

theorem lookupVal_fix_other (d : VDict) (k : String) (v : Val)
    (h1 : k ≠ "from") (h2 : k ≠ "from_user") (h : lookupV d k = some v) :
    lookupVal (fix_reserved_keys (.dict d)) k = some (fixValAction v) := by
  simp only [fix_reserved_keys, lookupVal]
  rw [lookupV_fixEntries, lookupV_renameFrom_ne d k h1 h2, h]
  rfl

/-- C4 counterexample: the claim asserts that after one application of the
reserved-key rewrite the key `from` no longer exists at any nesting level.
For the concrete payload `{"a": [[{"from": 1}]]}` the rewrite leaves the
inner mapping untouched (the rewrite does not recurse into a list element
that is itself a list), so `from` is still present after one — and after
two — applications. -/
theorem normalize_deep_from_survives :
    hasFromDeepVal
        (fix_reserved_keys
          (.dict (.cons "a"
            (.list (.cons (.list (.cons (.dict (.cons "from" (.int 1) .nil)) .nil)) .nil))
            .nil))) = true := by
  simp [fix_reserved_keys, renameFrom, lookupV, fixEntries, fixList,
    hasFromDeepVal, hasFromDeepEntries, hasFromDeepList]

/-- C4 (amended): `Bot._fix_reserved_keys` is idempotent — a second
application changes nothing — and after one application the key `from` no
longer exists at any nesting level the rewrite reaches (top level, nested
mappings, and mappings that are direct elements of a sequence value;
mappings inside a sequence nested within another sequence are not reached
and may retain `from`). -/
theorem normalize_idempotent :
    (∀ v : Val, fix_reserved_keys (fix_reserved_keys v) = fix_reserved_keys v) ∧
    (∀ d : VDict, noFromVal (fix_reserved_keys (.dict d)) = true) := by
  refine ⟨fix_reserved_keys_idem, fun d => ?_⟩
  have h := noFromVal_fixValAction (.dict d)
  simpa [fixValAction] using h

/-- C8: the reserved-key rewrite renames `from` to `from_user` in the
top-level mapping; every other key keeps its (recursively rewritten) value,
where the per-value rewrite recurses into mapping values and into mapping
elements of sequence values, leaves non-mapping elements of sequences
unchanged, and leaves scalar values unchanged; a scalar at top level also
passes through unchanged. -/
theorem fix_reserved_keys_rewrite_shape :
    (∀ v : Val, isScalar v = true → fix_reserved_keys v = v ∧ fixValAction v = v) ∧
    (∀ (d : VDict) (v : Val), lookupV d "from" = some v →
        lookupVal (fix_reserved_keys (.dict d)) "from" = none ∧
        lookupVal (fix_reserved_keys (.dict d)) "from_user" = some (fixValAction v)) ∧
    (∀ (d : VDict) (k : String) (v : Val), k ≠ "from" → k ≠ "from_user" →
        lookupV d k = some v →
        lookupVal (fix_reserved_keys (.dict d)) k = some (fixValAction v)) ∧
    (∀ d2 : VDict, fixValAction (.dict d2) = fix_reserved_keys (.dict d2)) ∧
    (∀ l : VList,
        fixValAction (.list l) = .list (fixList l) ∧
        VList.toList (fixList l) =
          (VList.toList l).map (fun i => match i with
            | Val.dict _ => fix_reserved_keys i
            | _ => i)) := by
  refine ⟨?_, ?_, ?_, fun _ => rfl, fun l => ⟨rfl, fixList_toList l⟩⟩
  · intro v hv
    cases v <;> simp_all [isScalar, fix_reserved_keys, fixValAction]
  · exact fun d v h => ⟨lookupVal_fix_from d, lookupVal_fix_from_user d v h⟩
  · exact fun d k v h1 h2 h => lookupVal_fix_other d k v h1 h2 h

/-- Witness for C8 at `{"from": 7, "x": [1, {"from": 2}]}`. -/
theorem fix_reserved_keys_rewrite_shape_witness :
    lookupVal (fix_reserved_keys (.dict (.cons "from" (.int 7)
        (.cons "x" (.list (.cons (.int 1) (.cons (.dict (.cons "from" (.int 2) .nil)) .nil)))
          .nil)))) "from_user" = some (.int 7) ∧
    lookupVal (fix_reserved_keys (.dict (.cons "from" (.int 7)
        (.cons "x" (.list (.cons (.int 1) (.cons (.dict (.cons "from" (.int 2) .nil)) .nil)))
          .nil)))) "from" = none := by
  have h := fix_reserved_keys_rewrite_shape.2.1
      (.cons "from" (.int 7)
        (.cons "x" (.list (.cons (.int 1) (.cons (.dict (.cons "from" (.int 2) .nil)) .nil)))
          .nil)) (.int 7) (by simp [lookupV])
  exact ⟨h.2.trans (by simp [fixValAction]), h.1⟩

/-- C10: when a mapping contains both `from` and `from_user`, the rewrite's
assignment `data["from_user"] = data.pop("from")` makes the `from` value win:
afterwards `from_user` holds the (recursively rewritten) old `from` value and
`from` is gone, so the original `from_user` value is lost. -/
theorem from_overwrites_from_user (d : VDict) (v w : Val)
    (hv : lookupV d "from" = some v) (hw : lookupV d "from_user" = some w) :
    lookupVal (fix_reserved_keys (.dict d)) "from_user" = some (fixValAction v) ∧
    lookupVal (fix_reserved_keys (.dict d)) "from" = none :=
  ⟨lookupVal_fix_from_user d v hv, lookupVal_fix_from d⟩

/-- Witness for C10 at `{"from_user": "old", "from": "new"}`: the surviving
`from_user` value is `"new"`. -/
theorem from_overwrites_from_user_witness :
    lookupVal (fix_reserved_keys (.dict (.cons "from_user" (.str "old")
        (.cons "from" (.str "new") .nil)))) "from_user" = some (.str "new") ∧
    lookupVal (fix_reserved_keys (.dict (.cons "from_user" (.str "old")
        (.cons "from" (.str "new") .nil)))) "from" = none := by
  have h := from_overwrites_from_user
      (.cons "from_user" (.str "old") (.cons "from" (.str "new") .nil))
      (.str "new") (.str "old") (by simp [lookupV]) (by simp [lookupV])
  exact ⟨h.1.trans (by simp [fixValAction]), h.2⟩

/-- The fixed ordered list of update kinds (`update_types` in `bot.py`). -/
def update_types : List String :=
  ["message", "edited_message", "channel_post", "edited_channel_post",
   "business_connection", "business_message", "edited_business_message",
   "deleted_business_messages", "message_reaction", "message_reaction_count",
   "inline_query", "chosen_inline_result", "callback_query", "shipping_query",
   "pre_checkout_query", "purchased_paid_media", "poll", "poll_answer",
   "my_chat_member", "chat_member", "chat_join_request", "chat_boost",
   "removed_chat_boost"]

/-- Python `k in update` for a dict. -/
def hasKeyD (u : VDict) (k : String) : Bool := (lookupV u k).isSome

/-- Embeds `Bot._extract_update_type`: return the first kind of `update_types` that
is a top-level key of the update, else `None`. -/
def extract_update_type (u : VDict) : Option String :=
  update_types.find? (fun ut => hasKeyD u ut)

/-- Index of the first occurrence of a string in a list (length if absent). -/
def listIdx : List String → String → Nat
  | [], _ => 0
  | h :: t, k => if h = k then 0 else listIdx t k + 1

theorem find?_of_unique (p : String → Bool) :
    ∀ (l : List String) (k : String), k ∈ l → p k = true →
      (∀ k' ∈ l, p k' = true → k' = k) → l.find? p = some k := by
  intro l
  induction l with
  | nil => intro k hk; simp at hk
  | cons h t ih =>
      intro k hk hp huniq
      cases ph : p h with
      | true =>
          rw [List.find?_cons_of_pos _ ph]
          exact congrArg some (huniq h (by simp) ph)
      | false =>
          rw [List.find?_cons_of_neg _ (by simp [ph])]
          have hkt : k ∈ t := by
            rcases List.mem_cons.mp hk with h1 | h1
            · subst h1; rw [hp] at ph; cases ph
            · exact h1
          exact ih k hkt hp (fun k' hk' => huniq k' (List.mem_cons_of_mem _ hk'))

theorem find?_of_earlier (p : String → Bool) :
    ∀ (l : List String) (k1 k2 : String), k1 ∈ l → p k1 = true → p k2 = true →
      (∀ k' ∈ l, p k' = true → k' = k1 ∨ k' = k2) →
      listIdx l k1 < listIdx l k2 → l.find? p = some k1 := by
  intro l
  induction l with
  | nil => intro k1 k2 hk; simp at hk
  | cons h t ih =>
      intro k1 k2 hk1 hp1 hp2 hboth hidx
      cases ph : p h with
      | true =>
          rw [List.find?_cons_of_pos _ ph]
          refine congrArg some ?_
          rcases hboth h (by simp) ph with h1 | h1
          · exact h1
          · subst h1
            by_cases he : h = k1
            · exact he
            · exfalso
              simp [listIdx, he] at hidx
      | false =>
          rw [List.find?_cons_of_neg _ (by simp [ph])]
          have hne1 : h ≠ k1 := fun he => by rw [he, hp1] at ph; cases ph
          have hne2 : h ≠ k2 := fun he => by rw [he, hp2] at ph; cases ph
          have hk1t : k1 ∈ t := by
            rcases List.mem_cons.mp hk1 with h1 | h1
            · exact absurd h1.symm hne1
            · exact h1
          refine ih k1 k2 hk1t hp1 hp2
            (fun k' hk' => hboth k' (List.mem_cons_of_mem _ hk')) ?_
          simp only [listIdx, if_neg hne1, if_neg hne2] at hidx
          omega

/-- C2: `Bot._extract_update_type` scans the fixed 23-entry `update_types`
enumeration in order and returns the first kind whose name is a top-level
key: a payload with exactly one recognized kind key yields that kind, a
payload with two recognized kind keys yields the earlier-listed one, and a
payload with no recognized kind key yields `None`. -/
theorem classify_first_matching_kind :
    update_types.length = 23 ∧
    (∀ (u : VDict) (k : String), k ∈ update_types → hasKeyD u k = true →
        (∀ k' ∈ update_types, hasKeyD u k' = true → k' = k) →
        extract_update_type u = some k) ∧
    (∀ (u : VDict) (k1 k2 : String), k1 ∈ update_types → k2 ∈ update_types →
        hasKeyD u k1 = true → hasKeyD u k2 = true →
        (∀ k' ∈ update_types, hasKeyD u k' = true → k' = k1 ∨ k' = k2) →
        listIdx update_types k1 < listIdx update_types k2 →
        extract_update_type u = some k1) ∧
    (∀ u : VDict, (∀ k ∈ update_types, hasKeyD u k = false) →
        extract_update_type u = none) := by
  refine ⟨rfl, ?_, ?_, ?_⟩
  · exact fun u k hk hp hu => find?_of_unique _ update_types k hk hp hu
  · exact fun u k1 k2 hk1 _ hp1 hp2 hboth hidx =>
      find?_of_earlier _ update_types k1 k2 hk1 hp1 hp2 hboth hidx
  · intro u hall
    exact List.find?_eq_none.mpr (fun k hk => by simp [hall k hk])

/-- Witness for C2: `{"poll": None, "callback_query": None}` classifies as
`callback_query` (listed before `poll`); `{"message": None}` classifies as
`message`; `{"foo": None}` classifies as `None`. -/
theorem classify_first_matching_kind_witness :
    extract_update_type (.cons "poll" .null (.cons "callback_query" .null .nil)) =
        some "callback_query" ∧
    extract_update_type (.cons "message" .null .nil) = some "message" ∧
    extract_update_type (.cons "foo" .null .nil) = none := by
  refine ⟨?_, ?_, ?_⟩
  · exact classify_first_matching_kind.2.2.1
      (.cons "poll" .null (.cons "callback_query" .null .nil))
      "callback_query" "poll" (by decide) (by decide)
      (by decide) (by decide) (by decide) (by decide)
  · exact classify_first_matching_kind.2.1 (.cons "message" .null .nil) "message"
      (by decide) (by decide) (by decide)
  · exact classify_first_matching_kind.2.2.2 (.cons "foo" .null .nil) (by decide)

/-- Type of a callable filter body over an update dict: it may return any
value (Python is untyped here) or raise an exception. -/
def PredE : Type := VDict → Except Unit Val

/-- The `except Exception: return False` boundary of the combinators. -/
def catchFalse : Except Unit Bool → Bool
  | .ok b => b
  | .error _ => false

/-- Embeds `AndFilter.__call__`: `bool(f1(update)) and bool(f2(update))` inside a
`try`, returning `False` on any exception (`and` short-circuits). -/
def andFilterCall (f1 f2 : PredE) (u : VDict) : Bool :=
  catchFalse (do
    let a ← f1 u
    if truthy a then do
      let b ← f2 u
      pure (truthy b)
    else pure false)

/-- Embeds `OrFilter.__call__`: `bool(f1(update)) or bool(f2(update))` inside a
`try`, returning `False` on any exception (`or` short-circuits). -/
def orFilterCall (f1 f2 : PredE) (u : VDict) : Bool :=
  catchFalse (do
    let a ← f1 u
    if truthy a then pure true
    else do
      let b ← f2 u
      pure (truthy b))

/-- Embeds `NotFilter.__call__`: `not bool(f(update))` inside a `try`, returning
`False` on any exception. -/
def notFilterCall (f : PredE) (u : VDict) : Bool :=
  catchFalse (do
    let a ← f u
    pure (!truthy a))

/-- Embeds `FilterWrapper.__call__`: `bool(self.func(update))` inside a `try`,
returning `False` on any exception. -/
def filterWrapperCall (f : PredE) (u : VDict) : Bool :=
  catchFalse (do
    let a ← f u
    pure (truthy a))

/-- C3: the AND/OR/NOT combinators never propagate an exception of an
operand predicate; whenever the evaluation of an operand that the
combinator actually runs raises, the combinator's result is `false`
(evaluation order: the first operand always runs; the second operand of
AND runs only if the first was truthy, of OR only if the first was falsy). -/
theorem combinators_swallow_exceptions (f1 f2 : PredE) (u : VDict) :
    ((f1 u).isOk = false →
        andFilterCall f1 f2 u = false ∧ orFilterCall f1 f2 u = false ∧
        notFilterCall f1 u = false ∧ filterWrapperCall f1 u = false) ∧
    (∀ v : Val, f1 u = .ok v → truthy v = true → (f2 u).isOk = false →
        andFilterCall f1 f2 u = false) ∧
    (∀ v : Val, f1 u = .ok v → truthy v = false → (f2 u).isOk = false →
        orFilterCall f1 f2 u = false) := by
  refine ⟨?_, ?_, ?_⟩
  · intro h1
    cases hf : f1 u with
    | ok v => rw [hf] at h1; cases h1
    | error e =>
        simp [andFilterCall, orFilterCall, notFilterCall, filterWrapperCall,
          hf, catchFalse, Bind.bind, Except.bind]
  · intro v hf hv h2
    cases hg : f2 u with
    | ok w => rw [hg] at h2; cases h2
    | error e =>
        simp [andFilterCall, hf, hv, hg, catchFalse, Bind.bind, Except.bind]
  · intro v hf hv h2
    cases hg : f2 u with
    | ok w => rw [hg] at h2; cases h2
    | error e =>
        simp [orFilterCall, hf, hv, hg, catchFalse, Bind.bind, Except.bind]

/-- Witness for C3: with a raising first operand and a constant-true second
operand both AND and OR yield `false` instead of propagating; with a truthy
first operand and raising second operand AND yields `false`. -/
theorem combinators_swallow_exceptions_witness :
    andFilterCall (fun _ => .error ()) (fun _ => .ok (.bool true)) .nil = false ∧
    orFilterCall (fun _ => .error ()) (fun _ => .ok (.bool true)) .nil = false ∧
    notFilterCall (fun _ => .error ()) .nil = false ∧
    andFilterCall (fun _ => .ok (.bool true)) (fun _ => .error ()) .nil = false := by
  refine ⟨?_, ?_, ?_, ?_⟩
  · exact ((combinators_swallow_exceptions (fun _ => .error ())
      (fun _ => .ok (.bool true)) .nil).1 rfl).1
  · exact ((combinators_swallow_exceptions (fun _ => .error ())
      (fun _ => .ok (.bool true)) .nil).1 rfl).2.1
  · exact ((combinators_swallow_exceptions (fun _ => .error ())
      (fun _ => .ok (.bool true)) .nil).1 rfl).2.2.1
  · exact (combinators_swallow_exceptions (fun _ => .ok (.bool true))
      (fun _ => .error ()) .nil).2.1 (.bool true) rfl rfl rfl

/-- The `txt = update.get("text") or update.get("caption")` step of `Filters.text`:
the caption is used whenever the text is *falsy* (absent, `None`, or the
empty string), per Python `or`. -/
def textOrCaption (u : VDict) : Val :=
  if truthy (pyGet u "text") then pyGet u "text" else pyGet u "caption"

/-- Embeds the `Filters.text(*texts)` body: `False` if the text-or-caption value is
`None`; `True` if no arguments were given; else membership of the value in
the given strings. -/
def text_filter (texts : List String) (u : VDict) : Bool :=
  let txt := textOrCaption u
  if txt = Val.null then false
  else if texts.isEmpty then true
  else
    match txt with
    | .str s => decide (s ∈ texts)
    | _ => false

/-- C6 counterexample: the body `{"text": ""}` has a present, non-null
text, yet `Filters.text()` with no arguments rejects it — the Python `or`
falls through on the empty (falsy) string to the absent caption, giving
`None`.  This contradicts the claim that the no-argument text filter
matches exactly the bodies whose text (or, failing that, caption) is
non-absent/non-null. -/
theorem text_empty_string_no_match :
    pyGet (.cons "text" (.str "") .nil) "text" = Val.str "" ∧
    Val.str "" ≠ Val.null ∧
    text_filter [] (.cons "text" (.str "") .nil) = false := by
  refine ⟨rfl, by decide, ?_⟩
  simp [text_filter, textOrCaption, pyGet, lookupV, truthy]

/-- C6 (amended): the text filter matches iff the *effective* text — the
body's text if truthy, else its caption — is non-null and, when argument
values are given, is a string among them.  In particular a truthy text
is checked first and only a falsy text falls back to the caption. -/
theorem text_matches_iff (texts : List String) (u : VDict) :
    text_filter texts u = true ↔
      (textOrCaption u ≠ Val.null ∧
        (texts = [] ∨ ∃ s, textOrCaption u = Val.str s ∧ s ∈ texts)) := by
  simp only [text_filter]
  by_cases hn : textOrCaption u = Val.null
  · simp [hn]
  · simp only [if_neg hn]
    cases hts : texts with
    | nil => simp [hn]
    | cons t ts =>
        simp only [List.isEmpty_cons, if_neg Bool.false_ne_true]
        cases hv : textOrCaption u with
        | str s => simp [hn, decide_eq_true_eq]
        | null => exact absurd hv hn
        | bool b => simp [hn]
        | int n => simp [hn]
        | list l => simp [hn]
        | dict d => simp [hn]

/-- Python `cmd.startswith("/")`. -/
def startsWithSlash (c : String) : Bool :=
  match c.data with
  | [] => false
  | ch :: _ => ch == '/'

/-- Registered command forms: a name already starting with `/` registers
itself only; otherwise both the `/`-prefixed and bare forms are registered
(`valid_cmds` in `Filters.command`, a set modelled as a list). -/
def build_valid_cmds (cmds : List String) : List String :=
  cmds.foldl (fun acc c =>
    if startsWithSlash c then acc ++ [c]
    else acc ++ ["/" ++ c, c]) []

/-- Python `len(s)`. -/
def pyLen (s : String) : Nat := s.data.length

/-- Python `s[0:n]` on a string (negative `n` counts from the end). -/
def pySliceStr (s : String) (n : Int) : String :=
  if n < 0 then String.mk (s.data.take (pyLen s - min (pyLen s) n.natAbs))
  else String.mk (s.data.take n.toNat)

/-- Embeds `text[0:e.get("length", 0)]`: slicing needs a string and an int (or a
bool, which Python treats as 0/1); anything else raises. -/
def pySlice (text lenV : Val) : Except Unit String :=
  match text, lenV with
  | .str s, .int n => .ok (pySliceStr s n)
  | .str s, .bool b => .ok (pySliceStr s (if b then 1 else 0))
  | _, _ => .error ()

/-- Embeds `if "@" in command_text: command_text = command_text.split("@")[0]` —
the prefix of the command text before the first `@`. -/
def stripAtSuffix (ct : String) : String :=
  if ct.data.contains '@' then String.mk (ct.data.takeWhile (fun c => !(c == '@')))
  else ct

/-- Python `e.get(...)` requires `e` to be a dict, else it raises. -/
def asDictE : Val → Except Unit VDict
  | .dict d => .ok d
  | _ => .error ()

def VDict.keys : VDict → List String
  | .nil => []
  | .cons k _ t => k :: t.keys

/-- Python `for e in entities`: lists iterate their elements, strings iterate
their one-character substrings, dicts iterate their keys; `None`, booleans
and ints raise. -/
def iterElems : Val → Except Unit (List Val)
  | .list l => .ok l.toList
  | .str s => .ok (s.data.map (fun c => Val.str (String.mk [c])))
  | .dict d => .ok (d.keys.map Val.str)
  | _ => .error ()

/-- The two literal-text checks after the entity loop in `Filters.command`:
`text in valid_cmds`, then the (redundant) loop accepting a `/`-prefixed
registered form equal to the text. -/
def textInValid (valid : List String) (text : Val) : Bool :=
  (match text with
   | .str s => decide (s ∈ valid)
   | _ => false) ||
  valid.any (fun c =>
    startsWithSlash c &&
      (match text with
       | .str s => decide (s = c)
       | _ => false))

/-- The entity loop of `Filters.command`: for each entity that is a
`bot_command` at offset 0, slice the text to the entity length, strip an
`@botname` suffix, and accept if the result is registered; fall through to
the literal-text checks when no entity accepts. -/
def commandLoop (valid : List String) (text : Val) : List Val → Except Unit Bool
  | [] => .ok (textInValid valid text)
  | e :: rest => do
      let ed ← asDictE e
      if (pyGet ed "type" == Val.str "bot_command") && (pyGet ed "offset" == Val.int 0) then do
        let ct ← pySlice text (pyGetD ed "length" (Val.int 0))
        if stripAtSuffix ct ∈ valid then .ok true
        else commandLoop valid text rest
      else commandLoop valid text rest

/-- Embeds `entities = update.get("entities", []) or update.get("caption_entities", [])`. -/
def cmdEntities (u : VDict) : Val :=
  if truthy (pyGetD u "entities" (.list .nil)) then pyGetD u "entities" (.list .nil)
  else pyGetD u "caption_entities" (.list .nil)

/-- Embeds `text = update.get("text", "") or update.get("caption", "")`. -/
def cmdText (u : VDict) : Val :=
  if truthy (pyGetD u "text" (.str "")) then pyGetD u "text" (.str "")
  else pyGetD u "caption" (.str "")

/-- Embeds the `Filters.command(*commands)` body (before the `FilterWrapper` boundary):
`False` on falsy text, else the entity loop followed by the literal checks. -/
def command_filter (valid : List String) (u : VDict) : Except Unit Bool :=
  let text := cmdText u
  if truthy text = false then .ok false
  else do
    let ents ← iterElems (cmdEntities u)
    commandLoop valid text ents

/-- C5 counterexample: for `command("start")` the body `{"text": "start"}`
has no entities and its literal text is the *bare* form, not a
`/`-prefixed registered form — by the claim's (a)/(b) disjunction it must
not match, yet the code's `text in valid_cmds` check accepts it. -/
theorem command_bare_literal_matches :
    command_filter (build_valid_cmds ["start"]) (.cons "text" (.str "start") .nil) =
        .ok true ∧
    iterElems (cmdEntities (.cons "text" (.str "start") .nil)) = .ok [] ∧
    (∀ c ∈ build_valid_cmds ["start"], startsWithSlash c = true → "start" ≠ c) := by
  refine ⟨?_, ?_, by decide⟩
  · simp [command_filter, cmdText, cmdEntities, pyGetD, lookupV, truthy, iterElems,
      VList.toList, commandLoop, textInValid, build_valid_cmds, startsWithSlash,
      Bind.bind, Except.bind]
  · simp [cmdEntities, pyGetD, lookupV, truthy, iterElems, VList.toList]

/-- Whether one entity makes the entity path of `Filters.command` accept:
a dict entity of type `bot_command` at offset 0 whose sliced, `@`-stripped
command text is a registered form. -/
def entHit (valid : List String) (s : String) (e : Val) : Bool :=
  match e with
  | .dict ed =>
      (pyGet ed "type" == Val.str "bot_command") && (pyGet ed "offset" == Val.int 0) &&
        (match pyGetD ed "length" (Val.int 0) with
         | .int n => decide (stripAtSuffix (pySliceStr s n) ∈ valid)
         | _ => false)
  | _ => false

theorem textInValid_str (valid : List String) (s : String) :
    textInValid valid (.str s) = decide (s ∈ valid) := by
  simp only [textInValid]
  cases hm : decide (s ∈ valid) with
  | true => simp
  | false =>
      simp only [Bool.false_or]
      rw [List.any_eq_false]
      intro c hc
      simp only [Bool.and_eq_true, decide_eq_true_eq, not_and]
      intro _ hsc
      rw [decide_eq_false_iff_not] at hm
      exact absurd (hsc ▸ hc) hm

theorem commandLoop_characterize (valid : List String) (s : String) :
    (ents : List Val) →
    (∀ e ∈ ents, ∃ ed, e = Val.dict ed ∧
        ∃ n : Int, pyGetD ed "length" (Val.int 0) = Val.int n) →
    commandLoop valid (.str s) ents = .ok (ents.any (entHit valid s) || decide (s ∈ valid))
  | [], _ => by simp [commandLoop, textInValid_str]
  | e :: rest, hwf => by
      obtain ⟨ed, rfl, n, hn⟩ := hwf e (by simp)
      have ih := commandLoop_characterize valid s rest
        (fun e' he' => hwf e' (List.mem_cons_of_mem _ he'))
      simp only [commandLoop, asDictE, Bind.bind, Except.bind]
      cases hc : (pyGet ed "type" == Val.str "bot_command") && (pyGet ed "offset" == Val.int 0) with
      | false =>
          rw [if_neg (by simp [hc])]
          rw [ih]
          simp [entHit, hc]
      | true =>
          rw [if_pos (by simp [hc])]
          rw [hn]
          simp only [pySlice]
          cases hm : decide (stripAtSuffix (pySliceStr s n) ∈ valid) with
          | true =>
              rw [decide_eq_true_eq] at hm
              rw [if_pos hm]
              simp [entHit, hc, hn, hm]
          | false =>
              rw [if_neg (by simpa using hm)]
              rw [ih]
              simp [entHit, hc, hn, hm]

/-- C5 (amended): for registered names, a body whose effective text is the
string `s` and whose effective entities iterate to `ents` (all dict-shaped
with integer lengths) matches `Filters.command` iff `s` is non-empty and
either (a) some entity of type `bot_command` at offset 0 has a sliced,
`@`-stripped command text that is a registered form (bare or `/`-prefixed),
or (b) the literal text is a registered form — bare or `/`-prefixed, not
only `/`-prefixed as originally claimed.  In particular a body with no
entities and empty text never matches, and an entity at a non-zero offset
never matches via the entity path. -/
theorem command_matches_iff (names : List String) (u : VDict) (s : String)
    (ents : List Val)
    (ht : cmdText u = Val.str s)
    (he : iterElems (cmdEntities u) = .ok ents)
    (hwf : ∀ e ∈ ents, ∃ ed, e = Val.dict ed ∧
        ∃ n : Int, pyGetD ed "length" (Val.int 0) = Val.int n) :
    command_filter (build_valid_cmds names) u = .ok true ↔
      (s ≠ "" ∧
        ((∃ ed, Val.dict ed ∈ ents ∧
            pyGet ed "type" = Val.str "bot_command" ∧
            pyGet ed "offset" = Val.int 0 ∧
            (∃ n : Int, pyGetD ed "length" (Val.int 0) = Val.int n ∧
              stripAtSuffix (pySliceStr s n) ∈ build_valid_cmds names)) ∨
          s ∈ build_valid_cmds names)) := by
  simp only [command_filter, ht]
  by_cases hs : s = ""
  · subst hs
    simp [truthy]
  · have htr : truthy (Val.str s) = true := by simpa [truthy] using hs
    rw [htr]
    simp only [Bool.true_eq_false, if_neg (by trivial : ¬ False)]
    rw [he]
    simp only [Bind.bind, Except.bind]
    rw [commandLoop_characterize (build_valid_cmds names) s ents hwf]
    simp only [Except.ok.injEq, Bool.or_eq_true, List.any_eq_true,
      decide_eq_true_eq]
    constructor
    · rintro (⟨e, hmem, hhit⟩ | hlit)
      · refine ⟨hs, Or.inl ?_⟩
        obtain ⟨ed, rfl, n, hn⟩ := hwf e hmem
        simp only [entHit, hn, Bool.and_eq_true, beq_iff_eq, decide_eq_true_eq] at hhit
        exact ⟨ed, hmem, hhit.1.1, hhit.1.2, n, hn, hhit.2⟩
      · exact ⟨hs, Or.inr hlit⟩
    · rintro ⟨-, ⟨ed, hmem, hty, hoff, n, hn, hstrip⟩ | hlit⟩
      · refine Or.inl ⟨.dict ed, hmem, ?_⟩
        simp [entHit, hty, hoff, hn, hstrip]
      · exact Or.inr hlit

/-- Witness for C5 (amended) at the body
`{"text": "/start@mybot", "entities": [{"type": "bot_command", "offset": 0,
"length": 12}]}` with `command("start")`: the entity path accepts after
stripping the `@mybot` suffix. -/
theorem command_matches_iff_witness :
    command_filter (build_valid_cmds ["start"])
      (.cons "text" (.str "/start@mybot")
        (.cons "entities"
          (.list (.cons (.dict (.cons "type" (.str "bot_command")
            (.cons "offset" (.int 0) (.cons "length" (.int 12) .nil)))) .nil))
          .nil)) = .ok true := by
  have h := command_matches_iff ["start"]
    (.cons "text" (.str "/start@mybot")
      (.cons "entities"
        (.list (.cons (.dict (.cons "type" (.str "bot_command")
          (.cons "offset" (.int 0) (.cons "length" (.int 12) .nil)))) .nil))
        .nil))
    "/start@mybot"
    [.dict (.cons "type" (.str "bot_command")
      (.cons "offset" (.int 0) (.cons "length" (.int 12) .nil)))]
    (by simp [cmdText, pyGetD, lookupV, truthy])
    (by simp [cmdEntities, pyGetD, lookupV, truthy, iterElems, VList.toList])
    (by
      intro e he
      simp only [List.mem_singleton] at he
      subst he
      exact ⟨_, rfl, 12, by simp [pyGetD, lookupV]⟩)
  refine h.mpr ⟨by decide, Or.inl ?_⟩
  refine ⟨.cons "type" (.str "bot_command")
    (.cons "offset" (.int 0) (.cons "length" (.int 12) .nil)), by simp, ?_, ?_, 12, ?_, ?_⟩
  · simp [pyGet, lookupV]
  · simp [pyGet, lookupV]
  · simp [pyGetD, lookupV]
  · decide

-- Structural (declarative-mapping) matching: the dict/dict branch of
-- `match_filter`.  Match succeeds iff every key of the filter mapping
-- exists in the body and each filter value either recursively matches
-- (when it is itself a dict) or is equal to the body's value; any missing
-- key fails immediately, and a non-dict on either side fails.
mutual

def matchStruct (item : Val) : Val → Bool
  | .dict fd =>
      (match item with
       | .dict idd => matchEntries idd fd
       | _ => false)
  | _ => false

def matchEntries (idd : VDict) : VDict → Bool
  | .nil => true
  | .cons k v rest =>
      (match lookupV idd k with
       | none => false
       | some iv =>
           (match v with
            | .dict _ => matchStruct iv v
            | _ => iv == v)) &&
      matchEntries idd rest

end

/-- A filter as stored in the registry: `None`, a callable (which may
return any value or raise), or a declarative value. -/
inductive PFilter where
  | pnone : PFilter
  | fn (f : Val → Except Unit Val) : PFilter
  | val (v : Val) : PFilter

/-- Embeds `match_filter(item, filt)`: `None` always matches; a callable is run
inside a `try` (its result converted with `bool(...)`, exceptions meaning
no-match); otherwise the structural dict/dict match. -/
def match_filter (item : Val) : PFilter → Bool
  | .pnone => true
  | .fn f =>
      (match f item with
       | .ok v => truthy v
       | .error _ => false)
  | .val v => matchStruct item v

theorem matchEntries_iff : (fd : VDict) → ∀ idd : VDict,
    matchEntries idd fd = true ↔
      ∀ kv ∈ fd.entries, ∃ iv, lookupV idd kv.1 = some iv ∧
        (match kv.2 with
         | Val.dict _ => matchStruct iv kv.2 = true
         | _ => iv = kv.2)
  | .nil, idd => by simp [matchEntries, VDict.entries]
  | .cons k v rest, idd => by
      have ih := matchEntries_iff rest idd
      simp only [matchEntries, Bool.and_eq_true, VDict.entries, List.mem_cons]
      constructor
      · rintro ⟨hhead, htail⟩ kv hkv
        rcases hkv with rfl | hkv
        · cases hl : lookupV idd k with
          | none => rw [hl] at hhead; cases hhead
          | some iv =>
              rw [hl] at hhead
              refine ⟨iv, rfl, ?_⟩
              cases v <;> simpa using hhead
        · exact (ih.mp htail) kv hkv
      · intro hall
        refine ⟨?_, ih.mpr (fun kv hkv => hall kv (Or.inr hkv))⟩
        obtain ⟨iv, hiv, hcond⟩ := hall (k, v) (Or.inl rfl)
        rw [hiv]
        cases v <;> simpa using hcond

/-- C7: a `None` filter always matches; a declarative mapping filter
matches a body mapping iff every key of the filter exists in the body and
each filter value either recursively matches (when it is a mapping) or
equals the body's value; a single key of the filter missing from the body
makes the whole match fail. -/
theorem match_filter_characterization :
    (∀ item : Val, match_filter item .pnone = true) ∧
    (∀ fd idd : VDict,
        matchStruct (.dict idd) (.dict fd) = true ↔
          ∀ kv ∈ fd.entries, ∃ iv, lookupV idd kv.1 = some iv ∧
            (match kv.2 with
             | Val.dict _ => matchStruct iv kv.2 = true
             | _ => iv = kv.2)) ∧
    (∀ (fd idd : VDict) (k : String) (v : Val),
        (k, v) ∈ fd.entries → lookupV idd k = none →
        matchStruct (.dict idd) (.dict fd) = false) := by
  refine ⟨fun _ => rfl, ?_, ?_⟩
  · intro fd idd
    rw [show matchStruct (.dict idd) (.dict fd) = matchEntries idd fd from by
      simp [matchStruct]]
    exact matchEntries_iff fd idd
  · intro fd idd k v hkv hnone
    rw [show matchStruct (.dict idd) (.dict fd) = matchEntries idd fd from by
      simp [matchStruct]]
    cases hm : matchEntries idd fd with
    | false => rfl
    | true =>
        obtain ⟨iv, hiv, -⟩ := (matchEntries_iff fd idd).mp hm (k, v) hkv
        rw [hnone] at hiv
        cases hiv

/-- Witness for C7: the filter `{"chat": {"id": 1}}` matches the body
`{"chat": {"id": 1}, "text": "x"}`, while the filter `{"chat": None}`
fails against a body without a `chat` key. -/
theorem match_filter_characterization_witness :
    matchStruct (.dict (.cons "chat" (.dict (.cons "id" (.int 1) .nil))
        (.cons "text" (.str "x") .nil)))
      (.dict (.cons "chat" (.dict (.cons "id" (.int 1) .nil)) .nil)) = true ∧
    matchStruct (.dict (.cons "text" (.str "hi") .nil))
      (.dict (.cons "chat" .null .nil)) = false ∧
    match_filter (.dict .nil) .pnone = true := by
  refine ⟨?_, ?_, match_filter_characterization.1 (.dict .nil)⟩
  · refine (match_filter_characterization.2.1 _ _).mpr ?_
    intro kv hkv
    simp only [VDict.entries, List.mem_singleton] at hkv
    subst hkv
    refine ⟨.dict (.cons "id" (.int 1) .nil), by decide, ?_⟩
    refine (match_filter_characterization.2.1 _ _).mpr ?_
    intro kv2 hkv2
    simp only [VDict.entries, List.mem_singleton] at hkv2
    subst hkv2
    exact ⟨.int 1, by decide, by decide⟩
  · exact match_filter_characterization.2.2 _ _ "chat" .null (by simp [VDict.entries])
      (by decide)

/-- A registered handler: takes the update body, may raise. -/
def Handler : Type := VDict → Except Unit Unit

/-- Embeds `ok = filt(data) if callable(filt) else match_filter(data, filt)`
followed by the truthiness test `if ok:`; a callable filter runs bare, so
its exception escapes to the dispatcher's `try`. -/
def dispatchEval (filt : PFilter) (data : VDict) : Except Unit Bool :=
  match filt with
  | .fn f => (f (.dict data)).map truthy
  | other => .ok (match_filter (.dict data) other)

/-- Observable dispatch events: handler invocation, or the `except` branch
logging an error (from a raising filter or a raising handler). -/
inductive DEvent where
  | invoked (i : Nat) : DEvent
  | errorLogged (i : Nat) : DEvent
deriving DecidableEq, Repr

/-- Embeds `Bot._process_handlers` over the registration list, from pair index
`i`: each pair evaluates its filter inside the shared `try` (a raising
filter logs and skips the pair), a truthy filter result invokes the
handler, and a raising handler logs; the loop always continues to the
next pair. -/
def runPairs (data : VDict) : Nat → List (PFilter × Handler) → List DEvent
  | _, [] => []
  | i, (filt, h) :: rest =>
      (match dispatchEval filt data with
       | .error _ => [.errorLogged i]
       | .ok false => []
       | .ok true =>
           .invoked i ::
             (match h data with
              | .ok _ => []
              | .error _ => [.errorLogged i])) ++
      runPairs data (i + 1) rest

def process_handlers (pairs : List (PFilter × Handler)) (data : VDict) : List DEvent :=
  runPairs data 0 pairs

def invokedIndices (evs : List DEvent) : List Nat :=
  evs.filterMap (fun e =>
    match e with
    | .invoked i => some i
    | _ => none)

/-- Declarative side: indices (from `i`) of the filters whose evaluation
returns a truthy result. -/
def matchingIndices (data : VDict) : Nat → List PFilter → List Nat
  | _, [] => []
  | i, f :: rest =>
      (match dispatchEval f data with
       | .ok true => [i]
       | _ => []) ++
        matchingIndices data (i + 1) rest

theorem invokedIndices_runPairs (data : VDict) :
    (pairs : List (PFilter × Handler)) → (i : Nat) →
    invokedIndices (runPairs data i pairs) = matchingIndices data i (pairs.map Prod.fst)
  | [], _ => by simp [runPairs, matchingIndices, invokedIndices]
  | (filt, h) :: rest, i => by
      have ih := invokedIndices_runPairs data rest (i + 1)
      simp only [runPairs, List.map_cons, matchingIndices, invokedIndices,
        List.filterMap_append] at ih ⊢
      rw [ih]
      cases he : dispatchEval filt data with
      | error e => simp [he]
      | ok b =>
          cases b with
          | false => simp [he]
          | true =>
              cases hh : h data with
              | ok u => simp [he, hh]
              | error e => simp [he, hh]

theorem matchingIndices_ge (data : VDict) :
    (fs : List PFilter) → (i j : Nat) → j ∈ matchingIndices data i fs → i ≤ j
  | [], i, j => by simp [matchingIndices]
  | f :: rest, i, j => by
      intro hj
      simp only [matchingIndices, List.mem_append] at hj
      rcases hj with hj | hj
      · cases he : dispatchEval f data with
        | error e => rw [he] at hj; simp at hj
        | ok b =>
            rw [he] at hj
            cases b <;> simp_all
      · exact Nat.le_of_succ_le (matchingIndices_ge data rest (i + 1) j hj)

theorem matchingIndices_pairwise (data : VDict) :
    (fs : List PFilter) → (i : Nat) →
    List.Pairwise (· < ·) (matchingIndices data i fs)
  | [], i => by simp [matchingIndices]
  | f :: rest, i => by
      have ih := matchingIndices_pairwise data rest (i + 1)
      simp only [matchingIndices]
      cases he : dispatchEval f data with
      | error e => simpa using ih
      | ok b =>
          cases b with
          | false => simpa using ih
          | true =>
              simp only [List.singleton_append]
              refine List.pairwise_cons.mpr ⟨fun j hj => ?_, ih⟩
              exact Nat.lt_of_succ_le (matchingIndices_ge data rest (i + 1) j hj)

/-- C1: for every update body, dispatch invokes exactly the pairs whose
filter evaluation is truthy, in registration order (strictly increasing
registration indices), with no early termination; which pairs are invoked
is independent of the handlers, so a handler that raises (its exception is
caught and logged at the dispatch boundary) never prevents a later pair
from being evaluated and invoked. -/
theorem dispatch_invokes_all_matching :
    (∀ (pairs : List (PFilter × Handler)) (data : VDict),
        invokedIndices (process_handlers pairs data) =
          matchingIndices data 0 (pairs.map Prod.fst)) ∧
    (∀ (pairs1 pairs2 : List (PFilter × Handler)) (data : VDict),
        pairs1.map Prod.fst = pairs2.map Prod.fst →
        invokedIndices (process_handlers pairs1 data) =
          invokedIndices (process_handlers pairs2 data)) ∧
    (∀ (pairs : List (PFilter × Handler)) (data : VDict),
        List.Pairwise (· < ·) (invokedIndices (process_handlers pairs data))) := by
  refine ⟨?_, ?_, ?_⟩
  · exact fun pairs data => invokedIndices_runPairs data pairs 0
  · intro pairs1 pairs2 data hmap
    simp only [process_handlers]
    rw [invokedIndices_runPairs data pairs1 0, invokedIndices_runPairs data pairs2 0, hmap]
  · intro pairs data
    simp only [process_handlers]
    rw [invokedIndices_runPairs data pairs 0]
    exact matchingIndices_pairwise data (pairs.map Prod.fst) 0

/-- Witness for C1: two always-matching pairs where the first handler
raises; both handlers are invoked (indices `[0, 1]`), and the invocations
equal those of the same filters with non-raising handlers. -/
theorem dispatch_invokes_all_matching_witness :
    invokedIndices (process_handlers
        [(PFilter.pnone, (fun _ => .error () : Handler)),
         (PFilter.pnone, (fun _ => .ok () : Handler))] .nil) = [0, 1] ∧
    invokedIndices (process_handlers
        [(PFilter.pnone, (fun _ => .error () : Handler)),
         (PFilter.pnone, (fun _ => .ok () : Handler))] .nil) =
      invokedIndices (process_handlers
        [(PFilter.pnone, (fun _ => .ok () : Handler)),
         (PFilter.pnone, (fun _ => .ok () : Handler))] .nil) := by
  constructor
  · exact (dispatch_invokes_all_matching.1
      [(PFilter.pnone, (fun _ => .error () : Handler)),
       (PFilter.pnone, (fun _ => .ok () : Handler))] .nil).trans (by rfl)
  · exact dispatch_invokes_all_matching.2.1
      [(PFilter.pnone, (fun _ => .error () : Handler)),
       (PFilter.pnone, (fun _ => .ok () : Handler))]
      [(PFilter.pnone, (fun _ => .ok () : Handler)),
       (PFilter.pnone, (fun _ => .ok () : Handler))] .nil rfl

/-- Embeds `upd["update_id"] + 1` in `Bot._polling_loop`: a missing key raises
(`KeyError`), a non-numeric value raises (`TypeError`); Python booleans
count as 0/1. -/
def getUpdateId (u : VDict) : Except Unit Int :=
  match lookupV u "update_id" with
  | some (.int n) => .ok n
  | some (.bool b) => .ok (if b then 1 else 0)
  | _ => .error ()

/-- One iteration of `offset = max(offset, upd["update_id"] + 1)`. -/
def pollBatchStep (offset : Int) (u : VDict) : Except Unit Int :=
  (getUpdateId u).map (fun uid => max offset (uid + 1))

/-- The cursor after processing one fetched batch: each update advances the
offset; an exception aborts the batch (the dispatcher's `except` logs it)
and leaves the offset at its current value. -/
def pollBatchOffset : Int → List VDict → Int
  | o, [] => o
  | o, u :: rest =>
      match pollBatchStep o u with
      | .ok o' => pollBatchOffset o' rest
      | .error _ => o

theorem pollBatchOffset_mono : (o : Int) → (batch : List VDict) →
    o ≤ pollBatchOffset o batch
  | o, [] => le_refl o
  | o, u :: rest => by
      cases hs : pollBatchStep o u with
      | error e => simp [pollBatchOffset, hs]
      | ok o' =>
          simp only [pollBatchOffset, hs]
          have h1 : o ≤ o' := by
            simp only [pollBatchStep, Except.map] at hs
            cases hg : getUpdateId u with
            | error e => rw [hg] at hs; cases hs
            | ok uid =>
                rw [hg] at hs
                simp only [Except.ok.injEq] at hs
                subst hs
                exact le_max_left _ _
          exact le_trans h1 (pollBatchOffset_mono o' rest)

/-- C9: the polling-loop cursor never decreases; after a batch in which
every update carried an integer `update_id`, the cursor equals the fold of
`max(offset, id + 1)` over the batch, hence is strictly greater than every
`update_id` seen, so the next `getUpdates` fetch (which asks from the
cursor onwards) cannot redeliver an already-seen update. -/
theorem polling_offset_monotone_past_ids :
    (∀ (o : Int) (batch : List VDict), o ≤ pollBatchOffset o batch) ∧
    (∀ (o : Int) (batch : List VDict) (ids : List Int),
        List.Forall₂ (fun u n => getUpdateId u = .ok n) batch ids →
        (∀ n ∈ ids, n < pollBatchOffset o batch) ∧
        pollBatchOffset o batch = ids.foldl (fun acc n => max acc (n + 1)) o) := by
  refine ⟨pollBatchOffset_mono, ?_⟩
  intro o batch ids hrel
  induction hrel generalizing o with
  | nil => simp [pollBatchOffset]
  | cons hrel htail ih =>
      rename_i u n batch' ids'
      have hstep : pollBatchStep o u = .ok (max o (n + 1)) := by
        simp [pollBatchStep, hrel, Except.map]
      simp only [pollBatchOffset, hstep, List.foldl_cons]
      refine ⟨?_, (ih (max o (n + 1))).2⟩
      intro m hm
      rcases List.mem_cons.mp hm with rfl | hm
      · calc m < m + 1 := by omega
          _ ≤ max o (m + 1) := le_max_right _ _
          _ ≤ pollBatchOffset (max o (m + 1)) batch' := pollBatchOffset_mono _ _
      · exact (ih (max o (n + 1))).1 m hm

/-- Witness for C9: the batch `[{"update_id": 5}, {"update_id": 3}]` from
offset 0 yields cursor 6, strictly above both ids and above the old cursor. -/
theorem polling_offset_monotone_past_ids_witness :
    pollBatchOffset 0 [.cons "update_id" (.int 5) .nil,
        .cons "update_id" (.int 3) .nil] = 6 ∧
    (5 : Int) < pollBatchOffset 0 [.cons "update_id" (.int 5) .nil,
        .cons "update_id" (.int 3) .nil] ∧
    (3 : Int) < pollBatchOffset 0 [.cons "update_id" (.int 5) .nil,
        .cons "update_id" (.int 3) .nil] := by
  have h := polling_offset_monotone_past_ids.2 0
    [.cons "update_id" (.int 5) .nil, .cons "update_id" (.int 3) .nil] [5, 3]
    (by
      refine List.Forall₂.cons ?_ (List.Forall₂.cons ?_ List.Forall₂.nil) <;>
        simp [getUpdateId, lookupV])
  exact ⟨h.2.trans (by decide), h.1 5 (by simp), h.1 3 (by simp)⟩

/-- Witness for C6 (amended): `text("hi")` matches the body `{"text": "hi"}`. -/
theorem text_matches_iff_witness :
    text_filter ["hi"] (.cons "text" (.str "hi") .nil) = true := by
  refine (text_matches_iff ["hi"] (.cons "text" (.str "hi") .nil)).mpr ?_
  refine ⟨by simp [textOrCaption, pyGet, lookupV, truthy], Or.inr ?_⟩
  exact ⟨"hi", by simp [textOrCaption, pyGet, lookupV, truthy], by simp⟩
